import Mathlib

/-!
Verification of the fast univariate Lagrange evaluator
(src/lib/message-extensions/fast-univariate-lagrange.ts).

The implementation works over the prime field supplied by the o1js
library; the field modulus is a property of that external collaborator,
so the whole development is parameterised by a prime p.  Field elements
are modelled as ZMod p; the unsigned-integer value of a field element
(toBigInt in the source) is ZMod.val; integer arguments of the
implementation are cast through ℤ exactly where the source performs
arithmetic on JavaScript numbers before converting to field elements.
Fallible operations (thrown errors, division by a zero field element)
are modelled with Except.
-/

namespace FastLagrange

/-- Error outcomes of the component: the three named errors of the spec
plus the division-by-zero failure of the underlying field primitive
(o1js Field.inv throws on a zero argument). -/
inductive LagrangeError where
  | emptyMessage
  | invalidIndex
  | domainPoint
  | divisionByZero
  deriving DecidableEq, Repr

/-- Modelled from the spec: the SymbolEncoder (asciiToNumber in
src/lib/util.ts, which is not included under src/) is a total
deterministic mapping from each message symbol to its numeric code,
with the ASCII codes of the worked examples (code 65 for A, 66 for B,
90 for Z); i.e. the code point of the character. -/
def asciiToNumber (c : Char) : ℕ :=
  c.toNat

section Model

variable (p : ℕ) [Fact p.Prime]

/-- o1js Field.lessThan on constant field elements: strict comparison of
the canonical unsigned representatives. -/
def fieldLessThan (a b : ZMod p) : Bool :=
  decide (a.val < b.val)

/-- o1js Field.lessThanOrEqual on constant field elements. -/
def fieldLessThanOrEqual (a b : ZMod p) : Bool :=
  decide (a.val ≤ b.val)

/-- o1js Field.greaterThanOrEqual on constant field elements. -/
def fieldGreaterThanOrEqual (a b : ZMod p) : Bool :=
  decide (b.val ≤ a.val)

/-- Embedding of getNextLagrangeBasisPolynomialAtInput: computes the
value of the i-th Lagrange basis polynomial at r from the (i−1)-th one,
with the two defensive guards of the source and with each division
checked for a zero divisor as o1js Field.div does. -/
def getNextLagrangeBasisPolynomialAtInput (i n : ℕ) (r previousLagrangeBasis : ZMod p) :
    Except LagrangeError (ZMod p) :=
  if i < 1 then .error .invalidIndex
  else if fieldGreaterThanOrEqual p r (((0 : ℤ) : ZMod p))
      && fieldLessThanOrEqual p r (((n : ℤ) - 1 : ℤ) : ZMod p) then
    .error .domainPoint
  else if r - ((i : ℤ) : ZMod p) = 0 then .error .divisionByZero
  else if ((i : ℤ) : ZMod p) = 0 then .error .divisionByZero
  else
    .ok (previousLagrangeBasis * (r - (((i : ℤ) - 1 : ℤ) : ZMod p))
      * ((((-1 : ℤ) * ((n : ℤ) - (i : ℤ))) : ℤ) : ZMod p)
      / (r - ((i : ℤ) : ZMod p)) / ((i : ℤ) : ZMod p))

/-- Body of the loop of getLagrangeBasisAt: one factor of the direct
product definition, skipped when j = i, with the division checked for a
zero divisor. -/
def basisStep (i : ℕ) (interpolatingSet : List (ZMod p)) (r : ZMod p)
    (result : ZMod p) (j : ℕ) : Except LagrangeError (ZMod p) :=
  if i ≠ j then
    if interpolatingSet.getD i 0 - interpolatingSet.getD j 0 = 0 then
      .error .divisionByZero
    else
      .ok (result * (r - interpolatingSet.getD j 0)
        / (interpolatingSet.getD i 0 - interpolatingSet.getD j 0))
  else .ok result

/-- Embedding of getLagrangeBasisAt: the direct O(n) product evaluation
of the i-th Lagrange basis polynomial at r over the interpolating set. -/
def getLagrangeBasisAt (i : ℕ) (interpolatingSet : List (ZMod p)) (r : ZMod p) :
    Except LagrangeError (ZMod p) :=
  (List.range interpolatingSet.length).foldlM (basisStep p i interpolatingSet r) 1

/-- The field coefficient of the i-th symbol of the message: the image
under SymbolEncoder of message[i]. -/
def coeffOf (message : List Char) (i : ℕ) : ZMod p :=
  (asciiToNumber (message.getD i default) : ZMod p)

/-- Body of the main loop of getFastUnivariateLagrange: accumulate the
term for index i with the current basis value, then advance the basis
value with the recurrence unless i is the last index. -/
def sweepStep (n : ℕ) (message : List Char) (r : ZMod p)
    (state : ZMod p × ZMod p) (i : ℕ) : Except LagrangeError (ZMod p × ZMod p) :=
  let coefficient : ZMod p := coeffOf p message i
  let result := state.1 + coefficient * state.2
  if i < n - 1 then
    (getNextLagrangeBasisPolynomialAtInput p (i + 1) n r state.2).map
      (fun next => (result, next))
  else .ok (result, state.2)

/-- The interpolating set {0, ..., n−1} built by the evaluator,
represented as field elements. -/
def interpolatingSetOf (n : ℕ) : List (ZMod p) :=
  (List.range n).map (fun (index : ℕ) => (index : ZMod p))

/-- Embedding of getFastUnivariateLagrange: empty-message guard, domain
short-circuit, and otherwise the O(n) sweep seeded with the base-case
basis value. -/
def getFastUnivariateLagrange (message : List Char) (r : ZMod p) :
    Except LagrangeError (ZMod p) :=
  let n := message.length
  if n = 0 then .error .emptyMessage
  else if fieldLessThan p r ((n : ZMod p)) then
    .ok (coeffOf p message r.val)
  else
    (getLagrangeBasisAt p 0 (interpolatingSetOf p n) r).bind (fun basis0 =>
      ((List.range n).foldlM (sweepStep p n message r) ((0 : ZMod p), basis0)).map
        (fun final => final.1))

/-- The sequence of basis values produced during one evaluation sweep:
index 0 is the base-case value computed by getLagrangeBasisAt, and each
later one is obtained from its predecessor by the recurrence. -/
def sweptBasis (n : ℕ) (r : ZMod p) : ℕ → Except LagrangeError (ZMod p)
  | 0 => getLagrangeBasisAt p 0 (interpolatingSetOf p n) r
  | i + 1 => (sweptBasis n r i).bind (getNextLagrangeBasisPolynomialAtInput p (i + 1) n r)

/-- The mathematical value of the i-th Lagrange basis polynomial at r
over the domain {0, ..., n−1}, by the direct product definition of the
spec: Π over j ≠ i of (r − j)/(i − j). -/
def lagrangeBasisValue (n i : ℕ) (r : ZMod p) : ZMod p :=
  ∏ j ∈ (Finset.range n).erase i, (r - (j : ZMod p)) / ((i : ZMod p) - (j : ZMod p))

/-- The naive O(n^2) reference evaluation from the spec:
P(r) = Σ c_i · Π over j ≠ i of (r − j)/(i − j), where c_i is the code of
the i-th symbol. -/
def naiveLagrangeEval (message : List Char) (r : ZMod p) : ZMod p :=
  ∑ i ∈ Finset.range message.length,
    coeffOf p message i * lagrangeBasisValue p message.length i r

end Model

section Proofs

variable (p : ℕ) [Fact p.Prime]

lemma natCast_injOn_lt {a b : ℕ} (ha : a < p) (hb : b < p) (hab : a ≠ b) :
    (a : ZMod p) ≠ (b : ZMod p) := by
  intro h
  apply hab
  have hv := congrArg ZMod.val h
  rwa [ZMod.val_cast_of_lt ha, ZMod.val_cast_of_lt hb] at hv

lemma natCast_sub_ne_zero {a b : ℕ} (ha : a < p) (hb : b < p) (hab : a ≠ b) :
    (a : ZMod p) - (b : ZMod p) ≠ 0 :=
  sub_ne_zero_of_ne (natCast_injOn_lt p ha hb hab)

/-- The numerator of the direct product definition of the i-th basis
value: Π over j ≠ i of (r − j). -/
def numerProd (n i : ℕ) (r : ZMod p) : ZMod p :=
  ∏ j ∈ (Finset.range n).erase i, (r - (j : ZMod p))

/-- The denominator of the direct product definition of the i-th basis
value: Π over j ≠ i of (i − j). -/
def denomProd (n i : ℕ) : ZMod p :=
  ∏ j ∈ (Finset.range n).erase i, ((i : ZMod p) - (j : ZMod p))

lemma lagrangeBasisValue_eq_div (n i : ℕ) (r : ZMod p) :
    lagrangeBasisValue p n i r = numerProd p n i r / denomProd p n i := by
  rw [lagrangeBasisValue, numerProd, denomProd, Finset.prod_div_distrib]

lemma denomProd_ne_zero {n i : ℕ} (hi : i < n) (hn : n ≤ p) : denomProd p n i ≠ 0 := by
  rw [denomProd, Finset.prod_ne_zero_iff]
  intro j hj
  rcases Finset.mem_erase.mp hj with ⟨hji, hjn⟩
  exact natCast_sub_ne_zero p (lt_of_lt_of_le hi hn)
    (lt_of_lt_of_le (Finset.mem_range.mp hjn) hn) (Ne.symm hji)

lemma numerProd_mul {n i : ℕ} (hi : i < n) (r : ZMod p) :
    numerProd p n i r * (r - (i : ZMod p)) = ∏ j ∈ Finset.range n, (r - (j : ZMod p)) := by
  rw [numerProd]
  exact Finset.prod_erase_mul (Finset.range n) _ (Finset.mem_range.mpr hi)

lemma erase_range_split {n i : ℕ} (hi : i < n) :
    (Finset.range n).erase i = Finset.range i ∪ Finset.Ico (i + 1) n := by
  ext j
  simp only [Finset.mem_erase, Finset.mem_range, Finset.mem_union, Finset.mem_Ico]
  omega

lemma prod_range_lower (i : ℕ) :
    ∏ j ∈ Finset.range i, ((i : ZMod p) - (j : ZMod p)) = (i.factorial : ZMod p) := by
  rw [← Finset.prod_range_reflect]
  have h : ∀ j ∈ Finset.range i, (i : ZMod p) - ((i - 1 - j : ℕ) : ZMod p)
      = ((j + 1 : ℕ) : ZMod p) := by
    intro j hj
    have hji : j < i := Finset.mem_range.mp hj
    have hsub : i - 1 - j = i - (j + 1) := by omega
    have hle : j + 1 ≤ i := hji
    rw [hsub, Nat.cast_sub hle]
    push_cast
    ring
  rw [Finset.prod_congr rfl h, ← Nat.cast_prod, Finset.prod_range_add_one_eq_factorial]

lemma prod_range_upper {n i : ℕ} (hi : i < n) :
    ∏ j ∈ Finset.Ico (i + 1) n, ((i : ZMod p) - (j : ZMod p))
      = (-1 : ZMod p) ^ (n - 1 - i) * ((n - 1 - i).factorial : ZMod p) := by
  rw [Finset.prod_Ico_eq_prod_range]
  have hcard : n - (i + 1) = n - 1 - i := by omega
  have h : ∀ k ∈ Finset.range (n - (i + 1)), (i : ZMod p) - ((i + 1 + k : ℕ) : ZMod p)
      = (-1 : ZMod p) * ((k + 1 : ℕ) : ZMod p) := by
    intro k _
    push_cast
    ring
  rw [Finset.prod_congr rfl h, Finset.prod_mul_distrib, Finset.prod_const,
    Finset.card_range, ← Nat.cast_prod, Finset.prod_range_add_one_eq_factorial, hcard]

lemma denomProd_closed {n i : ℕ} (hi : i < n) :
    denomProd p n i
      = (-1 : ZMod p) ^ (n - 1 - i) * (i.factorial : ZMod p)
        * ((n - 1 - i).factorial : ZMod p) := by
  rw [denomProd, erase_range_split hi, Finset.prod_union ?disj, prod_range_lower,
    prod_range_upper p hi]
  · ring
  case disj =>
    rw [Finset.disjoint_left]
    intro a ha hb
    have h1 := Finset.mem_range.mp ha
    have h2 := (Finset.mem_Ico.mp hb).1
    omega

lemma denomProd_ratio {n i : ℕ} (h1 : 1 ≤ i) (hi : i < n) :
    denomProd p n i * (-((n - i : ℕ) : ZMod p)) = (i : ZMod p) * denomProd p n (i - 1) := by
  obtain ⟨a, rfl⟩ : ∃ a, i = a + 1 := ⟨i - 1, by omega⟩
  obtain ⟨b, rfl⟩ : ∃ b, n = a + b + 2 := ⟨n - a - 2, by omega⟩
  rw [denomProd_closed p hi, denomProd_closed p (show a + 1 - 1 < a + b + 2 by omega)]
  have e1 : a + 1 - 1 = a := by omega
  have e2 : a + b + 2 - 1 - (a + 1) = b := by omega
  have e3 : a + b + 2 - (a + 1) = b + 1 := by omega
  have e4 : a + b + 2 - 1 - a = b + 1 := by omega
  rw [e1, e2, e3, e4, Nat.factorial_succ b, Nat.factorial_succ a]
  push_cast
  ring

/-- Guard analysis: on the arguments the evaluator actually supplies
(index between 1 and n−1, evaluation point outside the domain) the
recurrence performs no thrown error and returns the closed-form ratio
of the source. -/
lemma getNext_eq_formula {n i : ℕ} (h1 : 1 ≤ i) (hi : i < n) {r : ZMod p} (hr : n ≤ r.val)
    (previous : ZMod p) :
    getNextLagrangeBasisPolynomialAtInput p i n r previous
      = .ok (previous * (r - ((i : ZMod p) - 1)) * (-((n - i : ℕ) : ZMod p))
          / (r - (i : ZMod p)) / (i : ZMod p)) := by
  have hp : n < p := lt_of_le_of_lt hr (ZMod.val_lt r)
  have hip : i < p := lt_trans hi hp
  have hvi : ((i : ZMod p)).val = i := ZMod.val_cast_of_lt hip
  have hin : (((i : ℤ)) : ZMod p) = (i : ZMod p) := by push_cast; ring
  have hri : r - (i : ZMod p) ≠ 0 := by
    refine sub_ne_zero_of_ne ?_
    intro h
    have hv := congrArg ZMod.val h
    rw [hvi] at hv
    omega
  have hi0 : (i : ZMod p) ≠ 0 := by
    intro h
    have hv := congrArg ZMod.val h
    rw [hvi, ZMod.val_zero] at hv
    omega
  have hg : (fieldGreaterThanOrEqual p r (((0 : ℤ)) : ZMod p)
      && fieldLessThanOrEqual p r ((((n : ℤ) - 1 : ℤ)) : ZMod p)) = false := by
    have hcast : ((((n : ℤ) - 1 : ℤ)) : ZMod p) = ((n - 1 : ℕ) : ZMod p) := by
      have h' : ((n : ℤ) - 1) = ((n - 1 : ℕ) : ℤ) := by omega
      rw [h', Int.cast_natCast]
    rw [fieldLessThanOrEqual, hcast, ZMod.val_cast_of_lt (show n - 1 < p by omega)]
    simp only [Bool.and_eq_false_iff, decide_eq_false_iff_not, not_le]
    right
    omega
  rw [getNextLagrangeBasisPolynomialAtInput, if_neg (by omega : ¬ i < 1), hg]
  rw [if_neg (by simp : ¬ (false = true)), hin, if_neg hri, if_neg hi0]
  have hc1 : ((((i : ℤ) - 1 : ℤ)) : ZMod p) = (i : ZMod p) - 1 := by push_cast; ring
  have hc2 : ((((-1 : ℤ) * ((n : ℤ) - (i : ℤ))) : ℤ) : ZMod p) = -((n - i : ℕ) : ZMod p) := by
    rw [Nat.cast_sub (le_of_lt hi)]
    push_cast
    ring
  rw [hc1, hc2]

/-- Algebraic content of the recurrence: applying the closed-form ratio
of the source to the (i−1)-th basis value produces the i-th basis
value. -/
lemma formula_advances {n i : ℕ} (h1 : 1 ≤ i) (hi : i < n) {r : ZMod p} (hr : n ≤ r.val) :
    lagrangeBasisValue p n (i - 1) r * (r - ((i : ZMod p) - 1)) * (-((n - i : ℕ) : ZMod p))
      / (r - (i : ZMod p)) / (i : ZMod p) = lagrangeBasisValue p n i r := by
  have hp : n < p := lt_of_le_of_lt hr (ZMod.val_lt r)
  have hip : i < p := lt_trans hi hp
  have hvi : ((i : ZMod p)).val = i := ZMod.val_cast_of_lt hip
  have hri : r - (i : ZMod p) ≠ 0 := by
    refine sub_ne_zero_of_ne ?_
    intro h
    have hv := congrArg ZMod.val h
    rw [hvi] at hv
    omega
  have hi0 : (i : ZMod p) ≠ 0 := by
    intro h
    have hv := congrArg ZMod.val h
    rw [hvi, ZMod.val_zero] at hv
    omega
  have hD1 : denomProd p n (i - 1) ≠ 0 := denomProd_ne_zero p (by omega) (le_of_lt hp)
  have hD2 : denomProd p n i ≠ 0 := denomProd_ne_zero p hi (le_of_lt hp)
  have hcast : ((i - 1 : ℕ) : ZMod p) = (i : ZMod p) - 1 := by
    rw [Nat.cast_sub h1, Nat.cast_one]
  have hN : numerProd p n (i - 1) r * (r - ((i : ZMod p) - 1))
      = numerProd p n i r * (r - (i : ZMod p)) := by
    rw [← hcast, numerProd_mul p (show i - 1 < n by omega), numerProd_mul p hi]
  have hD : denomProd p n i * (-((n - i : ℕ) : ZMod p)) = (i : ZMod p) * denomProd p n (i - 1) :=
    denomProd_ratio p h1 hi
  rw [lagrangeBasisValue_eq_div, lagrangeBasisValue_eq_div]
  rw [div_mul_eq_mul_div, div_mul_eq_mul_div, div_div, div_div]
  rw [div_eq_div_iff (mul_ne_zero hD1 (mul_ne_zero hri hi0)) hD2]
  linear_combination (-((n - i : ℕ) : ZMod p)) * denomProd p n i * hN
    + numerProd p n i r * (r - (i : ZMod p)) * hD

/-- Combined recurrence correctness: fed the true (i−1)-th basis value,
the recurrence returns the true i-th basis value. -/
lemma getNext_ok {n i : ℕ} (h1 : 1 ≤ i) (hi : i < n) {r : ZMod p} (hr : n ≤ r.val) :
    getNextLagrangeBasisPolynomialAtInput p i n r (lagrangeBasisValue p n (i - 1) r)
      = .ok (lagrangeBasisValue p n i r) := by
  rw [getNext_eq_formula p h1 hi hr, formula_advances p h1 hi hr]

lemma except_ok_bind {α β : Type} (a : α) (f : α → Except LagrangeError β) :
    ((Except.ok a : Except LagrangeError α) >>= f) = f a :=
  rfl

lemma interpolatingSetOf_getD {n j : ℕ} (hj : j < n) :
    (interpolatingSetOf p n).getD j 0 = (j : ZMod p) := by
  rw [interpolatingSetOf, List.getD_eq_getElem?_getD, List.getElem?_map,
    List.getElem?_range hj]
  rfl

lemma interpolatingSetOf_length (n : ℕ) : (interpolatingSetOf p n).length = n := by
  rw [interpolatingSetOf, List.length_map, List.length_range]

lemma basis_fold {n i : ℕ} (hi : i < n) (hn : n ≤ p) (r : ZMod p) :
    ∀ b a, a + b ≤ n → ∀ acc : ZMod p,
      (List.range' a b).foldlM (basisStep p i (interpolatingSetOf p n) r) acc
        = .ok (acc * ∏ j ∈ (Finset.Ico a (a + b)).erase i,
            (r - (j : ZMod p)) / ((i : ZMod p) - (j : ZMod p))) := by
  intro b
  induction b with
  | zero =>
    intro a _ acc
    simp only [List.range', List.foldlM_nil, Nat.add_zero, Finset.Ico_self,
      Finset.erase_empty, Finset.prod_empty, mul_one]
    rfl
  | succ b ih =>
    intro a ha acc
    rw [List.range'_succ, List.foldlM_cons]
    by_cases hia : i = a
    · subst hia
      rw [basisStep, if_neg (by omega), except_ok_bind, ih (i + 1) (by omega) acc]
      congr 2
      have hset : (Finset.Ico i (i + (b + 1))).erase i = Finset.Ico (i + 1) (i + 1 + b) := by
        rw [← Nat.Ico_succ_left_eq_erase_Ico]
        congr 1
        omega
      rw [hset, Finset.erase_eq_of_not_mem (by simp only [Finset.mem_Ico]; omega)]
    · have han : a < n := by omega
      rw [basisStep, if_pos hia, interpolatingSetOf_getD p hi,
        interpolatingSetOf_getD p han,
        if_neg (natCast_sub_ne_zero p (lt_of_lt_of_le hi hn) (lt_of_lt_of_le han hn) hia),
        except_ok_bind, ih (a + 1) (by omega) _]
      congr 1
      have hset : Finset.Ico a (a + (b + 1)) = insert a (Finset.Ico (a + 1) (a + 1 + b)) := by
        rw [show a + 1 + b = a + (b + 1) by omega, ← Nat.Ico_insert_succ_left (by omega)]
      rw [hset, Finset.erase_insert_of_ne (Ne.symm hia), Finset.prod_insert
        (fun hmem => by
          have := (Finset.mem_Ico.mp (Finset.mem_of_mem_erase hmem)).1
          omega)]
      ring

lemma getLagrangeBasisAt_ok {n i : ℕ} (hi : i < n) (hn : n ≤ p) (r : ZMod p) :
    getLagrangeBasisAt p i (interpolatingSetOf p n) r = .ok (lagrangeBasisValue p n i r) := by
  rw [getLagrangeBasisAt, interpolatingSetOf_length, List.range_eq_range',
    basis_fold p hi hn r n 0 (by omega) 1]
  congr 1
  rw [one_mul, lagrangeBasisValue, Finset.range_eq_Ico, Nat.zero_add]

lemma except_ok_map {α β : Type} (a : α) (f : α → β) :
    (Except.ok a : Except LagrangeError α).map f = .ok (f a) :=
  rfl

lemma except_bind_ok {α β : Type} (a : α) (f : α → Except LagrangeError β) :
    (Except.ok a : Except LagrangeError α).bind f = f a :=
  rfl

lemma getNext_ok_succ {n k : ℕ} (hk : k + 1 < n) {r : ZMod p} (hr : n ≤ r.val) :
    getNextLagrangeBasisPolynomialAtInput p (k + 1) n r (lagrangeBasisValue p n k r)
      = .ok (lagrangeBasisValue p n (k + 1) r) := by
  have h := getNext_ok p (i := k + 1) (by omega) hk hr
  rwa [Nat.add_sub_cancel] at h

lemma sweep_fold {n : ℕ} (message : List Char) {r : ZMod p} (hr : n ≤ r.val) :
    ∀ b k, k + b = n → 1 ≤ b →
      (List.range' k b).foldlM (sweepStep p n message r)
          (∑ j ∈ Finset.range k, coeffOf p message j * lagrangeBasisValue p n j r,
            lagrangeBasisValue p n k r)
        = .ok (∑ j ∈ Finset.range n, coeffOf p message j * lagrangeBasisValue p n j r,
            lagrangeBasisValue p n (n - 1) r) := by
  intro b
  induction b with
  | zero =>
    intro k _ hb
    omega
  | succ b ih =>
    intro k hk _
    rw [List.range'_succ, List.foldlM_cons]
    by_cases hlast : k < n - 1
    · simp only [sweepStep, if_pos hlast, getNext_ok_succ p (by omega : k + 1 < n) hr,
        except_ok_map, except_ok_bind]
      have hstep := ih (k + 1) (by omega) (by omega)
      rw [Finset.sum_range_succ] at hstep
      exact hstep
    · have hb0 : b = 0 := by omega
      subst hb0
      have hk' : k = n - 1 := by omega
      simp only [sweepStep, if_neg hlast, except_ok_bind, List.range',
        List.foldlM_nil]
      have hsum : (∑ j ∈ Finset.range k, coeffOf p message j * lagrangeBasisValue p n j r)
          + coeffOf p message k * lagrangeBasisValue p n k r
            = ∑ j ∈ Finset.range n, coeffOf p message j * lagrangeBasisValue p n j r := by
        rw [← Finset.sum_range_succ, show k + 1 = n by omega]
      rw [hsum, hk']
      rfl

lemma evaluate_eq_naive_aux (message : List Char) (r : ZMod p) (hne : message ≠ [])
    (hr : message.length ≤ r.val) :
    getFastUnivariateLagrange p message r = .ok (naiveLagrangeEval p message r) := by
  have hn1 : 1 ≤ message.length := List.length_pos.mpr hne
  have hp : message.length < p := lt_of_le_of_lt hr (ZMod.val_lt r)
  have hguard : fieldLessThan p r ((message.length : ZMod p)) = false := by
    rw [fieldLessThan, ZMod.val_cast_of_lt hp]
    simp only [decide_eq_false_iff_not, not_lt]
    exact hr
  simp only [getFastUnivariateLagrange, if_neg (by omega : ¬ message.length = 0), hguard,
    Bool.false_eq_true, if_false,
    getLagrangeBasisAt_ok p (by omega : 0 < message.length) (le_of_lt hp) r,
    except_bind_ok]
  have hfold := sweep_fold p (n := message.length) message hr message.length 0 (by omega) hn1
  rw [Finset.sum_range_zero] at hfold
  rw [List.range_eq_range', hfold, except_ok_map, naiveLagrangeEval]

lemma lagrangeBasisValue_eq_eval (n i : ℕ) (r : ZMod p) :
    lagrangeBasisValue p n i r
      = Polynomial.eval r (Lagrange.basis (Finset.range n) (fun (k : ℕ) => (k : ZMod p)) i) := by
  rw [Lagrange.basis, Polynomial.eval_prod, lagrangeBasisValue]
  refine Finset.prod_congr rfl ?_
  intro j _
  rw [Lagrange.basisDivisor, Polynomial.eval_mul, Polynomial.eval_C, Polynomial.eval_sub,
    Polynomial.eval_X, Polynomial.eval_C, div_eq_mul_inv, mul_comm]

lemma sum_lagrangeBasisValue {n : ℕ} (hn1 : 1 ≤ n) (hn : n ≤ p) (r : ZMod p) :
    ∑ i ∈ Finset.range n, lagrangeBasisValue p n i r = 1 := by
  have hinj : Set.InjOn (fun (k : ℕ) => (k : ZMod p)) (Finset.range n) := by
    intro a ha b hb hab
    simp only [Finset.coe_range, Set.mem_Iio] at ha hb
    have hv := congrArg ZMod.val hab
    rwa [ZMod.val_cast_of_lt (by omega), ZMod.val_cast_of_lt (by omega)] at hv
  have hne : (Finset.range n).Nonempty := ⟨0, Finset.mem_range.mpr (by omega)⟩
  have hsum := Lagrange.sum_basis hinj hne
  calc ∑ i ∈ Finset.range n, lagrangeBasisValue p n i r
      = ∑ i ∈ Finset.range n,
          Polynomial.eval r (Lagrange.basis (Finset.range n) (fun (k : ℕ) => (k : ZMod p)) i) :=
        Finset.sum_congr rfl (fun i _ => lagrangeBasisValue_eq_eval p n i r)
    _ = Polynomial.eval r (∑ i ∈ Finset.range n,
          Lagrange.basis (Finset.range n) (fun (k : ℕ) => (k : ZMod p)) i) :=
        (Polynomial.eval_finset_sum _ _ _).symm
    _ = Polynomial.eval r 1 := by rw [hsum]
    _ = 1 := Polynomial.eval_one

lemma sweptBasis_ok {n i : ℕ} (hi : i < n) {r : ZMod p} (hr : n ≤ r.val) :
    sweptBasis p n r i = .ok (lagrangeBasisValue p n i r) := by
  induction i with
  | zero =>
    exact getLagrangeBasisAt_ok p (by omega)
      (le_of_lt (lt_of_le_of_lt hr (ZMod.val_lt r))) r
  | succ i ih =>
    rw [sweptBasis, ih (by omega), except_bind_ok, getNext_ok_succ p hi hr]

lemma evaluate_shortcircuit_getD (message : List Char) (r : ZMod p)
    (hp : message.length < p) (hr : r.val < message.length) :
    getFastUnivariateLagrange p message r = .ok (coeffOf p message r.val) := by
  have hguard : fieldLessThan p r ((message.length : ZMod p)) = true := by
    rw [fieldLessThan, ZMod.val_cast_of_lt hp]
    simpa using hr
  simp only [getFastUnivariateLagrange, if_neg (by omega : ¬ message.length = 0), hguard,
    if_true]

/-- C1: For every non-empty message and every field element r whose
unsigned integer value is outside [0, n) (n the message length),
evaluate(message, r) returns the same field element as the naive O(n²)
reference definition P(r) = Σ cᵢ·Π over j ≠ i of (r−j)/(i−j), where cᵢ
is the code of the i-th symbol: the optimised recurrence-based sweep
and the direct product definition are extensionally equal. -/
theorem evaluate_eq_naive_reference (message : List Char) (r : ZMod p)
    (hne : message ≠ []) (hr : message.length ≤ r.val) :
    getFastUnivariateLagrange p message r = .ok (naiveLagrangeEval p message r) :=
  evaluate_eq_naive_aux p message r hne hr

/-- C2: For every message of length n ≥ 1 (representable in the field)
and every field element r with unsigned value strictly less than n,
evaluate(message, r) returns exactly the field element encoding the
symbol at index r of the message. -/
theorem evaluate_domain_shortcircuit (message : List Char) (r : ZMod p)
    (hp : message.length < p) (hr : r.val < message.length) :
    getFastUnivariateLagrange p message r
      = .ok ((asciiToNumber (message.get ⟨r.val, hr⟩) : ZMod p)) := by
  rw [evaluate_shortcircuit_getD p message r hp hr]
  congr 2
  rw [coeffOf]
  congr 1
  rw [List.getD_eq_getElem?_getD, List.getElem?_eq_getElem hr]
  rfl

/-- C3: For every non-empty message (of length representable in the
field, as every JavaScript string is) and every field element r,
evaluate(message, r) returns a field element and raises no error: every
division on this path is by a nonzero field element and the defensive
error branches of the recurrence are unreachable. -/
theorem evaluate_no_error (message : List Char) (r : ZMod p) (hne : message ≠ [])
    (hp : message.length < p) :
    ∃ v, getFastUnivariateLagrange p message r = .ok v := by
  by_cases hr : r.val < message.length
  · exact ⟨_, evaluate_shortcircuit_getD p message r hp hr⟩
  · exact ⟨_, evaluate_eq_naive_aux p message r hne (by omega)⟩

/-- C4: For every i ≥ 1, every domain size n with i ≤ n − 1, every field
element r whose unsigned value is outside [0, n − 1], and every field
element previous, the recurrence step returns
previous · (r − (i−1)) · (−(n−i)) / ((r − i) · i); in particular, if
previous is the (i−1)-th basis value then the result is the i-th one. -/
theorem getNext_formula (i n : ℕ) (r previous : ZMod p) (h1 : 1 ≤ i) (hi : i ≤ n - 1)
    (hr : n ≤ r.val) :
    getNextLagrangeBasisPolynomialAtInput p i n r previous
      = .ok (previous * (r - ((i : ZMod p) - 1)) * (-((n - i : ℕ) : ZMod p))
          / ((r - (i : ZMod p)) * (i : ZMod p)))
    ∧ (previous = lagrangeBasisValue p n (i - 1) r →
        getNextLagrangeBasisPolynomialAtInput p i n r previous
          = .ok (lagrangeBasisValue p n i r)) := by
  have hin : i < n := by omega
  constructor
  · rw [getNext_eq_formula p h1 hin hr previous, div_div]
  · rintro rfl
    exact getNext_ok p h1 hin hr

/-- C5 (amended): The recurrence step raises InvalidIndexError iff its
index argument i is strictly less than 1; for domain sizes n with
1 ≤ n ≤ p and i ≥ 1 it raises DomainPointError iff the unsigned value
of r is at most n − 1; and when moreover i ≤ n − 1 (so that i indexes an
actual basis polynomial) and the unsigned value of r is outside
[0, n − 1], it returns normally. -/
theorem getNext_error_characterization (i n : ℕ) (r previous : ZMod p)
    (hn1 : 1 ≤ n) (hnp : n ≤ p) :
    (getNextLagrangeBasisPolynomialAtInput p i n r previous = .error .invalidIndex ↔ i < 1)
    ∧ (1 ≤ i →
        (getNextLagrangeBasisPolynomialAtInput p i n r previous = .error .domainPoint
          ↔ r.val ≤ n - 1))
    ∧ (1 ≤ i → i ≤ n - 1 → n ≤ r.val →
        ∃ v, getNextLagrangeBasisPolynomialAtInput p i n r previous = .ok v) := by
  have hval : ((((n : ℤ) - 1 : ℤ)) : ZMod p).val = n - 1 := by
    have h' : ((n : ℤ) - 1) = ((n - 1 : ℕ) : ℤ) := by omega
    rw [h', Int.cast_natCast, ZMod.val_cast_of_lt (by omega)]
  have hguard : (fieldGreaterThanOrEqual p r (((0 : ℤ)) : ZMod p)
      && fieldLessThanOrEqual p r ((((n : ℤ) - 1 : ℤ)) : ZMod p))
        = decide (r.val ≤ n - 1) := by
    rw [fieldGreaterThanOrEqual, fieldLessThanOrEqual, hval]
    simp
  refine ⟨?_, ?_, ?_⟩
  · rw [getNextLagrangeBasisPolynomialAtInput]
    by_cases h : i < 1
    · simp [h]
    · rw [if_neg h, hguard]
      constructor
      · intro heq
        split at heq
        · simp at heq
        · split at heq
          · simp at heq
          · split at heq
            · simp at heq
            · simp at heq
      · intro h1
        omega
  · intro h1
    rw [getNextLagrangeBasisPolynomialAtInput, if_neg (by omega), hguard]
    by_cases hd : r.val ≤ n - 1
    · simp [hd]
    · rw [if_neg (by simpa using hd)]
      constructor
      · intro heq
        split at heq
        · simp at heq
        · split at heq
          · simp at heq
          · simp at heq
      · intro hc
        exact absurd hc hd
  · intro h1 h2 h3
    exact ⟨_, getNext_eq_formula p h1 (by omega) h3 previous⟩

/-- C6: Partition of unity: for every n ≥ 1 and every field element r
outside the domain [0, n), the n basis values produced during one
evaluation sweep (the base-case value, then the n−1 recurrence values)
are exactly the direct-definition basis values, and they sum to the
multiplicative identity 1. -/
theorem sweep_partition_of_unity (n : ℕ) (r : ZMod p) (hn1 : 1 ≤ n) (hr : n ≤ r.val) :
    (∀ i, i < n → sweptBasis p n r i = .ok (lagrangeBasisValue p n i r))
      ∧ ∑ i ∈ Finset.range n, lagrangeBasisValue p n i r = 1 :=
  ⟨fun _ hi => sweptBasis_ok p hi hr,
    sum_lagrangeBasisValue p hn1 (le_of_lt (lt_of_le_of_lt hr (ZMod.val_lt r))) r⟩

/-- C7: For every single-symbol message [x] and every field element r,
whether or not r is the domain point 0, evaluate([x], r) returns the
field element encoding x. -/
theorem evaluate_singleton (x : Char) (r : ZMod p) :
    getFastUnivariateLagrange p [x] r = .ok ((asciiToNumber x : ZMod p)) := by
  have hp2 : 1 < p := (Fact.out : p.Prime).one_lt
  by_cases hg : r.val < 1
  · rw [evaluate_shortcircuit_getD p [x] r (by simpa using hp2) (by simpa using hg)]
    have hv : r.val = 0 := by omega
    rw [coeffOf, hv]
    rfl
  · rw [evaluate_eq_naive_aux p [x] r (by simp)
      (by simpa using (by omega : 1 ≤ r.val))]
    congr 1
    simp [naiveLagrangeEval, lagrangeBasisValue, coeffOf, Finset.range_one]

/-- C8: For every field element r, evaluate applied to the empty message
fails with EmptyMessageError. -/
theorem evaluate_empty_message (r : ZMod p) :
    getFastUnivariateLagrange p [] r = .error .emptyMessage :=
  rfl

/-- C9: Whenever the domain short-circuit guard of the evaluator is
taken, the index derived from r lies within the bounds of the message,
so the character lookup never accesses the message out of bounds. -/
theorem shortcircuit_index_in_bounds (message : List Char) (r : ZMod p)
    (h : fieldLessThan p r ((message.length : ZMod p)) = true) :
    r.val < message.length := by
  rw [fieldLessThan, decide_eq_true_eq] at h
  calc r.val < ((message.length : ZMod p)).val := h
    _ = message.length % p := ZMod.val_natCast message.length
    _ ≤ message.length := Nat.mod_le _ _

/-- C10: On the short-circuit path the result depends on no symbol other
than the selected one: two equal-length messages agreeing at index r
evaluate to the same field element there. -/
theorem shortcircuit_noninterference (m1 m2 : List Char) (r : ZMod p)
    (hp : m1.length < p) (hlen : m1.length = m2.length) (hr : r.val < m1.length)
    (hsym : m1.getD r.val default = m2.getD r.val default) :
    getFastUnivariateLagrange p m1 r = getFastUnivariateLagrange p m2 r := by
  rw [evaluate_shortcircuit_getD p m1 r hp hr,
    evaluate_shortcircuit_getD p m2 r (hlen ▸ hp) (hlen ▸ hr), coeffOf, coeffOf, hsym]

end Proofs

instance fact101prime : Fact (Nat.Prime 101) :=
  ⟨by norm_num⟩

/-- C5 counterexample: the claim as stated is false on the code. First,
with i = 5, n = 2 and r = 5 the index is at least 1 and the unsigned
value of r lies outside the closed integer range [0, n−1], yet the
recurrence does not return normally: it fails with the division-by-zero
error of the field primitive (r − i is the zero field element). Second,
with n = 0 and r = 3 the range [0, n−1] = [0, −1] is empty, so the
claim asserts no DomainPointError, yet the code raises it (the
JavaScript expression n − 1 = −1 wraps to the field element p − 1). -/
theorem getNext_error_claim_counterexample :
    ((1 : ℕ) ≤ 5 ∧ ¬ (((5 : ZMod 101).val : ℤ) ≤ (2 : ℤ) - 1) ∧
      getNextLagrangeBasisPolynomialAtInput 101 5 2 (5 : ZMod 101) 1
        = .error .divisionByZero)
    ∧ ((1 : ℕ) ≤ 1 ∧ ¬ ((0 : ℤ) ≤ (0 : ℤ) - 1) ∧
      getNextLagrangeBasisPolynomialAtInput 101 1 0 (3 : ZMod 101) 1
        = .error .domainPoint) :=
  ⟨⟨by decide, by decide, rfl⟩, ⟨by decide, by decide, rfl⟩⟩

/-- Witness for C1 at the spec's worked scenario. -/
theorem evaluate_eq_naive_reference_witness :
    getFastUnivariateLagrange 101 ['A', 'B'] (7 : ZMod 101)
      = .ok (naiveLagrangeEval 101 ['A', 'B'] (7 : ZMod 101)) :=
  evaluate_eq_naive_reference 101 ['A', 'B'] 7 (by decide) (by decide)

/-- Witness for C2 at a domain point. -/
theorem evaluate_domain_shortcircuit_witness :
    getFastUnivariateLagrange 101 ['A', 'B'] (0 : ZMod 101)
      = .ok ((asciiToNumber ((['A', 'B'] : List Char).get
          ⟨(0 : ZMod 101).val, by decide⟩) : ZMod 101)) :=
  evaluate_domain_shortcircuit 101 ['A', 'B'] 0 (by decide) (by decide)

/-- Witness for C3. -/
theorem evaluate_no_error_witness :
    ∃ v, getFastUnivariateLagrange 101 ['A', 'B'] (7 : ZMod 101) = .ok v :=
  evaluate_no_error 101 ['A', 'B'] 7 (by decide) (by decide)

/-- Witness for C4. -/
theorem getNext_formula_witness :
    getNextLagrangeBasisPolynomialAtInput 101 1 3 (7 : ZMod 101) 3
      = .ok (3 * ((7 : ZMod 101) - ((1 : ZMod 101) - 1)) * (-(((3 - 1 : ℕ)) : ZMod 101))
          / (((7 : ZMod 101) - (1 : ZMod 101)) * (1 : ZMod 101)))
    ∧ ((3 : ZMod 101) = lagrangeBasisValue 101 3 (1 - 1) (7 : ZMod 101) →
        getNextLagrangeBasisPolynomialAtInput 101 1 3 (7 : ZMod 101) 3
          = .ok (lagrangeBasisValue 101 3 1 (7 : ZMod 101))) :=
  getNext_formula 101 1 3 7 3 (by decide) (by decide) (by decide)

/-- Witness for the amended C5. -/
theorem getNext_error_characterization_witness :
    (getNextLagrangeBasisPolynomialAtInput 101 1 2 (7 : ZMod 101) 3
        = .error .invalidIndex ↔ (1 : ℕ) < 1)
    ∧ ((1 : ℕ) ≤ 1 →
        (getNextLagrangeBasisPolynomialAtInput 101 1 2 (7 : ZMod 101) 3
          = .error .domainPoint ↔ (7 : ZMod 101).val ≤ 2 - 1))
    ∧ ((1 : ℕ) ≤ 1 → (1 : ℕ) ≤ 2 - 1 → 2 ≤ (7 : ZMod 101).val →
        ∃ v, getNextLagrangeBasisPolynomialAtInput 101 1 2 (7 : ZMod 101) 3 = .ok v) :=
  getNext_error_characterization 101 1 2 7 3 (by decide) (by decide)

/-- Witness for C6 on a four-point domain. -/
theorem sweep_partition_of_unity_witness :
    (∀ i, i < 4 → sweptBasis 101 4 (7 : ZMod 101) i
        = .ok (lagrangeBasisValue 101 4 i (7 : ZMod 101)))
      ∧ ∑ i ∈ Finset.range 4, lagrangeBasisValue 101 4 i (7 : ZMod 101) = 1 :=
  sweep_partition_of_unity 101 4 7 (by decide) (by decide)

/-- Witness for C7 at the spec's single-symbol scenario. -/
theorem evaluate_singleton_witness :
    getFastUnivariateLagrange 101 ['Z'] (5 : ZMod 101)
      = .ok ((asciiToNumber 'Z' : ZMod 101)) :=
  evaluate_singleton 101 'Z' 5

/-- Witness for C8. -/
theorem evaluate_empty_message_witness :
    getFastUnivariateLagrange 101 [] (5 : ZMod 101) = .error .emptyMessage :=
  evaluate_empty_message 101 5

/-- Witness for C9. -/
theorem shortcircuit_index_in_bounds_witness :
    (1 : ZMod 101).val < (['A', 'B'] : List Char).length :=
  shortcircuit_index_in_bounds 101 ['A', 'B'] 1 (by decide)

/-- Witness for C10 on two messages agreeing at the selected index. -/
theorem shortcircuit_noninterference_witness :
    getFastUnivariateLagrange 101 ['A', 'B'] (0 : ZMod 101)
      = getFastUnivariateLagrange 101 ['A', 'C'] (0 : ZMod 101) :=
  shortcircuit_noninterference 101 ['A', 'B'] ['A', 'C'] 0 (by decide) (by decide)
    (by decide) (by decide)

end FastLagrange
